import Mathlib

/-!
Verification of the benchproc grouping/filtering engine (golang.org/x/perf).

This file shallowly embeds the parts of the `benchproc` package (and its
`internal/parse` helper) that the verified properties are about:

* the Config interning machinery of `schema.go` (`Schema.addField`,
  `Schema.internRow`, `Config.Get`);
* the tuple sort order of `sort.go` (`less`, `builtinOrders["num"]`,
  `parseNum`);
* the header compaction of `header.go` (`NewConfigHeader`);
* the full-name extractor of `extract.go` (`newExtractorFullName`,
  `extractFullExcluded`, `Name.Parts`);
* the filter and projection parsers of `internal/parse`
  (`parser.match`, `ParseProjection`, `ProjectionParser.makeProjection`).

Go strings are modelled as Lean `String`/`List Char`; byte-wise string
comparison of valid UTF-8 agrees with code-point-wise comparison, which is
what the model uses.  Go `float64` values are modelled as exact extended
decimals (`NumV` below): the claims under verification only involve small
exactly-representable values, infinities and NaN, so IEEE rounding and
overflow-to-infinity are not modelled.  Go maps are modelled as association
lists with last-insert-wins lookup.
-/

/-! ### Byte-wise string comparison (Go `strings.Compare`, `<` on strings) -/

/-- Three-way code-point comparison of character lists.  For valid UTF-8
this agrees with Go's byte-wise string comparison. -/
def cmpChars : List Char → List Char → Int
  | [], [] => 0
  | [], _ :: _ => -1
  | _ :: _, [] => 1
  | a :: as, b :: bs =>
    if a.toNat < b.toNat then -1
    else if b.toNat < a.toNat then 1
    else cmpChars as bs

/-- Go `a < b` on strings (byte-wise). -/
def goStrLt (a b : String) : Bool := cmpChars a.data b.data = -1

/-- Go `strings.Compare` (the `alpha` built-in order). -/
def cmpAlpha (a b : String) : Int := cmpChars a.data b.data

/-! ### Tuple values and the lexicographic order of `sort.go` -/

/-- Reading position `idx` of a value tuple, as both `less` and
`Config.Get` do: indexes past the end of the (trimmed) tuple read as `""`. -/
def getVal (vals : List String) (idx : Nat) : String := vals.getD idx ""

/-- One entry of the flattened field list as consumed by `less`:
its storage index and its value comparator. -/
structure FieldRef where
  idx : Nat
  cmp : String → String → Int

/-- `less` from `sort.go`: walk the flattened fields in schema order; at
the first field whose (padded) values differ, order by the field's
comparator, falling back to byte-wise string order when the comparator
reports 0 for differing strings.  Equal tuples are not less. -/
def less : List FieldRef → List String → List String → Bool
  | [], _, _ => false
  | f :: flat, a, b =>
    let aa := getVal a f.idx
    let bb := getVal b f.idx
    if aa = bb then less flat a b
    else if f.cmp aa bb ≠ 0 then decide (f.cmp aa bb < 0)
    else goStrLt aa bb

/-! ### The fuzzy numeric order (`builtinOrders["num"]`, `parseNum`)

Go `float64` results of `strconv.ParseFloat` are modelled as exact extended
decimals: `NumV` is NaN, an infinity, or a finite value `m / 10^e` stored as
an integer mantissa and a power-of-ten denominator exponent (kept unreduced
so that all arithmetic is kernel-computable integer arithmetic).  IEEE
rounding and overflow of huge decimal exponents to infinity are not
modelled; the verified properties only involve small exactly-representable
values. -/

/-- An exact finite decimal `m / 10^e`. -/
structure DecV where
  m : Int
  e : Nat
deriving DecidableEq

/-- The rational value of a `DecV` (used in statements only). -/
def DecV.toRat (d : DecV) : ℚ := (d.m : ℚ) / 10 ^ d.e

/-- Exact value comparison of two finite decimals, by cross-multiplying
with the (positive) denominators. -/
def dlt (a b : DecV) : Bool := a.m * 10 ^ b.e < b.m * 10 ^ a.e

/-- A `float64` as produced by the (decimal) `strconv.ParseFloat`:
NaN, an infinity, or a finite value, modelled exactly. -/
inductive NumV where
  | nan
  | negInf
  | posInf
  | fin (d : DecV)
deriving DecidableEq

/-- Go `<` on `float64`: any comparison with NaN is false. -/
def vlt : NumV → NumV → Bool
  | .nan, _ => false
  | _, .nan => false
  | .negInf, .negInf => false
  | .negInf, .posInf => true
  | .negInf, .fin _ => true
  | .posInf, _ => false
  | .fin _, .negInf => false
  | .fin _, .posInf => true
  | .fin a, .fin b => dlt a b

/-- Go `math.IsNaN`. -/
def isNaNV : NumV → Bool
  | .nan => true
  | _ => false

def isDigitC (c : Char) : Bool := '0' ≤ c && c ≤ '9'

def digitVal (c : Char) : Nat := c.toNat - '0'.toNat

def digitsToNat (ds : List Char) : Nat := ds.foldl (fun acc c => 10 * acc + digitVal c) 0

/-- ASCII-case-insensitive equality of character lists. -/
def ciEq (a b : List Char) : Bool := a.map Char.toLower == b.map Char.toLower

/-- The `inf`/`infinity` arm of `strconv`'s `special`: after an optional
sign, the whole rest must be "inf" or "infinity" (case-insensitive). -/
def infCheck (neg : Bool) (rest : List Char) : Option NumV :=
  if ciEq rest "inf".data || ciEq rest "infinity".data then
    some (if neg then .negInf else .posInf)
  else none

/-- `strconv`'s `special`: `[sign] inf|infinity`, or unsigned `nan`,
case-insensitively, consuming the whole string. -/
def parseSpecial : List Char → Option NumV
  | [] => none
  | c :: rest =>
    if c = '+' then infCheck false rest
    else if c = '-' then infCheck true rest
    else if ciEq (c :: rest) "nan".data then some .nan
    else infCheck false (c :: rest)

/-- The decimal-number arm of `strconv.ParseFloat`:
`[sign] digits [. digits] [(e|E) [sign] digits]` over the whole string, with
at least one mantissa digit, evaluated exactly (hex floats, digit-group
underscores and float64 range overflow are not modelled). -/
def parseDec (s : List Char) : Option DecV :=
  let (neg, s1) :=
    match s with
    | '+' :: r => (false, r)
    | '-' :: r => (true, r)
    | _ => (false, s)
  let d1 := s1.takeWhile isDigitC
  let r1 := s1.dropWhile isDigitC
  let (d2, r2) :=
    match r1 with
    | '.' :: r => (r.takeWhile isDigitC, r.dropWhile isDigitC)
    | _ => ([], r1)
  if d1.isEmpty && d2.isEmpty then none
  else
    let mant : Int :=
      if neg then -(digitsToNat (d1 ++ d2) : Int) else (digitsToNat (d1 ++ d2) : Int)
    match r2 with
    | [] => some ⟨mant, d2.length⟩
    | e :: r3 =>
      if e = 'e' || e = 'E' then
        let (eneg, r4) :=
          match r3 with
          | '+' :: r => (false, r)
          | '-' :: r => (true, r)
          | _ => (false, r3)
        let ed := r4.takeWhile isDigitC
        if ed.isEmpty || !(r4.dropWhile isDigitC).isEmpty then none
        else
          if eneg then some ⟨mant, d2.length + digitsToNat ed⟩
          else some ⟨mant * 10 ^ digitsToNat ed, d2.length⟩
      else none

/-- `strconv.ParseFloat` (decimal): specials first, then a decimal number. -/
def parseFloat (s : List Char) : Option NumV :=
  match parseSpecial s with
  | some v => some v
  | none => (parseDec s).map .fin

def isDigitDot (c : Char) : Bool := isDigitC c || c = '.'

/-- The SI prefix alphabet `numPrefixes = "KMGTPEZY"` from `sort.go`. -/
def siChars : List Char := ['K', 'M', 'G', 'T', 'P', 'E', 'Z', 'Y']

/-- Capture group 2 of `numRe` (`([k KMGTPEZY]i?)?`), read greedily at the
position following the digit run. -/
def reG2 : List Char → List Char
  | [] => []
  | c :: rest =>
    if c = 'k' || siChars.contains c then
      match rest with
      | 'i' :: _ => [c, 'i']
      | _ => [c]
    else []

/-- Leftmost match of `numRe = ([0-9.]+)([kKMGTPEZY]i?)?[bB]?`, returning
capture groups 1 and 2.  The match starts at the first `[0-9.]` character;
group 1 is the maximal digit-or-dot run (nothing later in the pattern can
match such a character, so greediness needs no backtracking); the trailing
`[bB]?` binds no group and cannot change where the match starts. -/
def numReMatch : List Char → Option (List Char × List Char)
  | [] => none
  | c :: rest =>
    if isDigitDot c then
      some ((c :: rest).takeWhile isDigitDot, reG2 ((c :: rest).dropWhile isDigitDot))
    else numReMatch rest

/-- `parseNum` from `sort.go`: try a plain float parse; else take the
`numRe` match, parse its number part, and scale by 1000^rank (metric) or
1024^rank (IEC, `i` suffix), where rank is `1 + IndexByte("KMGTPEZY", pre)`
after lower-case `k` is promoted to `K` (0 when the prefix group is empty). -/
def parseNum (x : String) : Option NumV :=
  match parseFloat x.data with
  | some v => some v
  | none =>
    match numReMatch x.data with
    | none => none
    | some (g1, g2) =>
      match parseFloat g1 with
      | some (.fin v) =>
        let exp : Nat :=
          match g2 with
          | [] => 0
          | p :: _ =>
            let p' := if p = 'k' then 'K' else p
            match siChars.findIdx? (fun c => c == p') with
            | some i => i + 1
            | none => 0
        let iec := g2.getLast? = some 'i'
        some (.fin ⟨v.m * (if iec then (1024 : Int) else 1000) ^ exp, v.e⟩)
      | _ => none

/-- `builtinOrders["num"]` from `sort.go`: numeric comparison with NaNs
ordered after all other numbers, unparsable strings after all numbers, and
two unparsable strings (or two NaNs) unordered (0). -/
def cmpNum (a b : String) : Int :=
  match parseNum a, parseNum b with
  | some aa, some bb =>
    if vlt aa bb || (!isNaNV aa && isNaNV bb) then -1
    else if vlt bb aa || (isNaNV aa && !isNaNV bb) then 1
    else 0
  | none, none => 0
  | some _, none => -1
  | none, some _ => 1

/-! ### Schema state: fields, interned Configs (`schema.go`)

A `Schema`'s mutable state is modelled by `SchemaSt`: the next storage
index (`nFields`), the flattened leaf fields in canonical (depth-first)
order, and the interned `configNode`s in creation order.  A Go `configNode`
pointer is modelled by the node's position in the creation-ordered
`configs` list — two `Config`s are reference-equal exactly when they carry
the same position.  Go maps are association lists: the `hash →
[]*configNode` index is flattened into one list (equal trimmed rows always
hash equally, so interning hits exactly the stored row that is equal to the
probe; bucketing is irrelevant to the result). -/

/-- The ordering policy wired into a field by
`ProjectionParser.makeProjection` (`initField`). -/
inductive CmpKind where
  | alpha
  | num
  | fixedOrd (fixedList : List String)
  | firstOrd
deriving DecidableEq

/-- Go map lookup with a 0 default (`map[string]int`): the bindings are
kept most-recent-first, so `find?` sees the latest insertion. -/
def assocGet (m : List (String × Int)) (x : String) : Int :=
  match m.find? (fun p => p.1 == x) with
  | some p => p.2
  | none => 0

/-- The `fixedMap` built by `makeProjection` for a fixed order:
`fixedMap[s] = i` for each listed value in turn. -/
def fixedMapOf (l : List String) : List (String × Int) :=
  l.enum.foldl (fun m p => (p.2, (p.1 : Int)) :: m) []

/-- A leaf field: its stable storage index, its ordering policy, and (for
the `first` policy) its observation-order map. -/
structure FieldSt where
  name : String
  idx : Nat
  kind : CmpKind
  order : List (String × Int)
deriving DecidableEq

/-- The comparator a field was wired with (`initField` in
`makeProjection`, or `builtinOrders`). -/
def fieldCmp (f : FieldSt) : String → String → Int :=
  match f.kind with
  | .alpha => cmpAlpha
  | .num => cmpNum
  | .fixedOrd l => fun a b => assocGet (fixedMapOf l) a - assocGet (fixedMapOf l) b
  | .firstOrd => fun a b => assocGet f.order a - assocGet f.order b

/-- The view of a field as consumed by `less`. -/
def refOf (f : FieldSt) : FieldRef := ⟨f.idx, fieldCmp f⟩

/-- Mutable Schema state. -/
structure SchemaSt where
  nFields : Nat
  fields : List FieldSt
  configs : List (List String)

/-- `Schema.addField`: the new field takes the next sequential storage
index `nFields` regardless of its position `p` in the flattened tree
(fields are appended to their parent group, which may sit anywhere in the
tree, so the flatten position is arbitrary).  The interned configs are
untouched. -/
def addFieldAt (s : SchemaSt) (p : Nat) (name : String) (k : CmpKind) : SchemaSt × FieldSt :=
  let f : FieldSt := ⟨name, s.nFields, k, []⟩
  (⟨s.nFields + 1, s.fields.take p ++ f :: s.fields.drop p, s.configs⟩, f)

/-- Trailing-empty trimming of a row, as at the top of `Schema.internRow`. -/
def trimRow (row : List String) : List String :=
  (row.reverse.dropWhile (fun v => v == "")).reverse

/-- One observation-order update from `Schema.internRow`: on an intern
miss, each field tracking observation order maps the row's value for it
(empty past the row's end) to the next sequential integer, if unseen. -/
def updateOrder (row : List String) (f : FieldSt) : FieldSt :=
  match f.kind with
  | .firstOrd =>
    let val := getVal row f.idx
    if (f.order.find? (fun p => p.1 == val)).isSome then f
    else { f with order := (val, (f.order.length : Int)) :: f.order }
  | _ => f

/-- The bucket scan of `Schema.internRow` (`config.equalRow(row)`): the
creation-order position of the config whose values equal the probe row. -/
def findRowIdx : List (List String) → List String → Option Nat
  | [], _ => none
  | c :: cs, row => if c = row then some 0 else (findRowIdx cs row).map (· + 1)

/-- `Schema.internRow`: trim the row, look it up among the interned
configs, and return the existing config's identity on a hit; on a miss,
update observation orders and intern the trimmed row as a new config.  The
returned `Nat` is the config's creation-order position, standing for the
`*configNode` pointer. -/
def internRow (s : SchemaSt) (rowBuf : List String) : SchemaSt × Nat :=
  match findRowIdx s.configs (trimRow rowBuf) with
  | some i => (s, i)
  | none =>
    (⟨s.nFields, s.fields.map (updateOrder (trimRow rowBuf)),
      s.configs ++ [trimRow rowBuf]⟩, s.configs.length)

/-- `Config.Get`: the value of field `f` in a config whose (trimmed)
values are `vals`; indices at or past the end read as `""`. -/
def configGet (vals : List String) (f : FieldSt) : String :=
  if vals.length ≤ f.idx then "" else vals.getD f.idx ""

/-- The parts of the Schema invariant the theorems rely on: every field's
storage index is in range, and every interned config is a trimmed row no
longer than the row buffer (`len(s.row) = s.nFields`). -/
def SchemaWF (s : SchemaSt) : Prop :=
  (∀ f ∈ s.fields, f.idx < s.nFields) ∧
  (∀ c ∈ s.configs, trimRow c = c ∧ c.length ≤ s.nFields)

/-! ### Header compaction (`header.go`, `NewConfigHeader`)

Configs are passed to `NewConfigHeader` as their value tuples indexed by
flattened-field position (the schema of the claimed example projects the
fields in storage order, so flatten position and storage index coincide);
`Config.Get` past a shorter tuple's end reads `""`. -/

/-- A `ConfigHeader` node: the field level (−1 for the virtual root), the
start index and span length of the run, and the common value. -/
structure HNode where
  field : Int
  start : Nat
  len : Nat
  value : String
deriving DecidableEq

/-- Value of config number `j` at level `i` (an out-of-range config or
level reads `""`, as `Config.Get` does for a trimmed tuple). -/
def rowGet (cs : List (List String)) (j i : Nat) : String := getVal (cs.getD j []) i

/-- The inner loop of `NewConfigHeader` over one parent span: extend the
current node while the value repeats, else start a new node. -/
def runsGo (i : Int) (pos : Nat) (cur : HNode) : List String → List HNode
  | [] => [cur]
  | v :: rest =>
    if v = cur.value then runsGo i (pos + 1) { cur with len := cur.len + 1 } rest
    else cur :: runsGo i (pos + 1) ⟨i, pos, 1, v⟩ rest

/-- Split one parent's values into maximal runs of equal values.  `node`
is reset for each parent (`var node *ConfigHeader` is scoped to the parent
loop), so runs never extend across a parent boundary. -/
def runs (i : Int) (base : Nat) : List String → List HNode
  | [] => []
  | v :: rest => runsGo i (base + 1) ⟨i, base, 1, v⟩ rest

/-- Subdivide one node of the previous level by the values at level `i`. -/
def subdivide (cs : List (List String)) (i : Nat) (parent : HNode) : List HNode :=
  runs (i : Int) parent.start
    ((List.range parent.len).map (fun j => rowGet cs (parent.start + j) i))

/-- The level-building loop of `NewConfigHeader`: `levels[i]` subdivides
every node of the previous level, and becomes the next previous level. -/
def levelsFrom (cs : List (List String)) : List HNode → Nat → Nat → List (List HNode)
  | _, _, 0 => []
  | prev, i, k + 1 =>
    let lvl := prev.flatMap (subdivide cs i)
    lvl :: levelsFrom cs lvl (i + 1) k

/-- `NewConfigHeader` over `nf` schema fields: nothing for an empty
sequence, else one level per field, each subdividing the previous level
starting from the virtual root span `{-1, 0, len(configs), ""}`. -/
def newConfigHeader (nf : Nat) (cs : List (List String)) : List (List HNode) :=
  if cs.isEmpty then []
  else levelsFrom cs [⟨-1, 0, cs.length, ""⟩] 0 nf

/-! ### Benchmark names and the full-name extractor (`extract.go`,
`benchfmt.Name.Parts`) -/

/-- `Name.splitGomaxprocs`, scanning from the end: digits, then a `-` that
is not the last character, split there; any other character stops the scan
with no GOMAXPROCS suffix.  The scan is modelled over the reversed
character list, `k` counting the digits already passed. -/
def gmpSuffixLen : List Char → Nat → Option Nat
  | [], _ => none
  | c :: rest, k =>
    if c = '-' then (if 0 < k then some (k + 1) else none)
    else if isDigitC c then gmpSuffixLen rest (k + 1)
    else none

/-- `Name.splitGomaxprocs` as (prefix, optional `-N` suffix). -/
def splitGmp (n : List Char) : List Char × Option (List Char) :=
  match gmpSuffixLen n.reverse 0 with
  | some k => (n.take (n.length - k), some (n.drop (n.length - k)))
  | none => (n, none)

/-- The slash split of `Name.Parts`: each `/` begins a new chunk that
keeps its leading `/`; the first chunk (possibly empty) is the base name. -/
def slashGo (cur : List Char) : List Char → List (List Char)
  | [] => [cur.reverse]
  | c :: rest =>
    if c = '/' then cur.reverse :: slashGo [c] rest
    else slashGo (c :: cur) rest

def slashSplit (buf : List Char) : List (List Char) := slashGo [] buf

/-- `Name.Parts`: pull off a GOMAXPROCS suffix, split the remainder at
`/`s, and return the base name and the configuration parts (the GOMAXPROCS
suffix last). -/
def nameParts (n : List Char) : List Char × List (List Char) :=
  let (buf, gmp) := splitGmp n
  let ps := slashSplit buf ++ (match gmp with | some g => [g] | none => [])
  match ps with
  | [] => ([], [])
  | b :: rest => (b, rest)

/-- Whether `needle` occurs as a contiguous substring of `hay`
(`bytes.Contains`). -/
def containsSub : List Char → List Char → Bool
  | [], needle => needle.isEmpty
  | h :: t, needle => needle.isPrefixOf (h :: t) || containsSub t needle

/-- The per-part rewrite of `extractFullExcluded`: the first excluded
`/key=` prefix match is replaced by `/key=*`; else, when GOMAXPROCS is
excluded, a `-N` part becomes `-*`; else the part is kept verbatim. -/
def rewritePart (replace : List (List Char)) (excG : Bool) (part : List Char) : List Char :=
  match replace.find? (fun k => k.isPrefixOf part) with
  | some k => k ++ ['*']
  | none =>
    if excG && part.headD ' ' == '-' then ['-', '*']
    else part

/-- `extractFullExcluded`: if nothing excluded occurs in the name, return
it verbatim; otherwise rebuild it from its parts, stubbing the base name
with `*` when excluded and rewriting each part. -/
def extractFullExcluded (n : List Char) (replace : List (List Char))
    (excName excG : Bool) : List Char :=
  let found := excName || replace.any (fun k => containsSub n k) || (excG && n.contains '-')
  if !found then n
  else
    let (base, ps) := nameParts n
    (if excName then ['*'] else base) ++ (ps.map (rewritePart replace excG)).flatten

/-- The configuration computed by `newExtractorFullName` from the excluded
keys: the `/key=` byte strings to replace, whether `.name` is excluded, and
whether `/gomaxprocs` is excluded.  Entries that are neither `.name` nor
`/`-prefixed are ignored. -/
def fullNameCfg (exclude : List String) : List (List Char) × Bool × Bool :=
  exclude.foldl
    (fun (acc : List (List Char) × Bool × Bool) k =>
      let (replace, excName, excG) := acc
      let excName := excName || k == ".name"
      if (k.data.headD ' ') == '/' then
        (replace ++ [k.data ++ ['=']], excName, excG || k == "/gomaxprocs")
      else (replace, excName, excG))
    ([], false, false)

/-- `newExtractorFullName`: with nothing to exclude this is `extractFull`
(the verbatim name); otherwise `extractFullExcluded` with the computed
configuration. -/
def fullNameExtract (exclude : List String) (n : List Char) : List Char :=
  let (replace, excName, excG) := fullNameCfg exclude
  if replace.isEmpty && !excName && !excG then n
  else extractFullExcluded n replace excName excG

/-- The specific-key bookkeeping of `ProjectionParser.makeProjection`'s
default case: `.name` and `/`-prefixed keys join `fullnameKeys` (the
exclusion list for a `.fullname` group); anything else is a file
configuration key. -/
def fullnameKeysOf (keys : List String) : List String :=
  keys.filter (fun k => k == ".name" || (k.data.headD ' ') == '/')

/-! ### Tokenizer and expression parsers (`internal/parse`)

The recursive-descent parsers (`filter.go`'s `parser` and `projection.go`'s
`ParseProjection`) are translated from the sources.  The tokenizer they
consume is not among the sources, only its call sites and documented
behaviour are. -/

/-- Token kinds: the parser's `'w' 'q' 'r' '(' ')' ':' '@' ',' '-' '*'
'A' 'O' 0` byte kinds as named constructors, plus an error kind. -/
inductive TokKind where
  | word
  | quoted
  | regex
  | lparen
  | rparen
  | colon
  | atSign
  | comma
  | dash
  | star
  | opAnd
  | opOr
  | eofTok
  | errTok
deriving DecidableEq

/-- A token: kind, text (the regex pattern for `regex` tokens, the error
message for `errTok`), and byte offset. -/
structure GTok where
  kind : TokKind
  tok : String
  off : Nat
deriving DecidableEq

/-- A parse error: the query, the byte offset of the offending token, and
a message (`SyntaxError` in `internal/parse`). -/
structure SynErr where
  query : String
  off : Nat
  msg : String
deriving DecidableEq

/-- `strconv.Quote`, sans escape rewriting (no verified message contains
characters needing escapes). -/
def goQuote (s : String) : String := "\"" ++ s ++ "\""

/-- Modelled from the spec: the tokenizer sources are absent; whitespace
separates tokens. -/
def skipWs (q : List Char) (pos : Nat) : Nat :=
  pos + ((q.drop pos).takeWhile (fun c => c == ' ')).length

/-- Modelled from the spec: a bare word is `[^-*"():@,][^ ():@,]*`; these
are the characters that end a word. -/
def wordStop (c : Char) : Bool :=
  c = ' ' || c = '(' || c = ')' || c = ':' || c = '@' || c = ','

/-- Modelled from the spec: scan a double-quoted Go string after the
opening quote, keeping `\"` and `\\` escapes; other escapes are reported
as `bad escape sequence` and a missing closing quote as `missing end
quote` (full Go escape syntax is not needed by the verified inputs). -/
def quotedScan (acc : List Char) : List Char → Option (List Char × Nat)
  | [] => none
  | '"' :: _ => some (acc.reverse, acc.length + 1)
  | '\\' :: c :: rest =>
    if c = '"' || c = '\\' then quotedScan (c :: acc) rest else none
  | c :: rest => quotedScan (c :: acc) rest

/-- Modelled from the spec: scan a `/regexp/` literal after the opening
slash; a backslash escapes the next character; returns the pattern and the
count of characters consumed including the closing slash. -/
def regexScan (acc : List Char) : List Char → Option (List Char × Nat)
  | [] => none
  | '/' :: _ => some (acc.reverse, acc.length + 1)
  | '\\' :: c :: rest => regexScan (c :: '\\' :: acc) rest
  | c :: rest => regexScan (c :: acc) rest

/-- Modelled from the spec: read one token in key position (`toks.key()`):
end of input, one of the punctuation characters `( ) : @ , - *`, a quoted
string, or a bare word, with `AND`/`OR` as contextual operators. -/
def keyTok (q : List Char) (pos0 : Nat) : GTok × Nat :=
  let pos := skipWs q pos0
  match q.drop pos with
  | [] => (⟨.eofTok, "", pos⟩, pos)
  | c :: rest =>
    if c = '(' then (⟨.lparen, "(", pos⟩, pos + 1)
    else if c = ')' then (⟨.rparen, ")", pos⟩, pos + 1)
    else if c = ':' then (⟨.colon, ":", pos⟩, pos + 1)
    else if c = '@' then (⟨.atSign, "@", pos⟩, pos + 1)
    else if c = ',' then (⟨.comma, ",", pos⟩, pos + 1)
    else if c = '-' then (⟨.dash, "-", pos⟩, pos + 1)
    else if c = '*' then (⟨.star, "*", pos⟩, pos + 1)
    else if c = '"' then
      match quotedScan [] rest with
      | some (w, used) => (⟨.quoted, String.mk w, pos⟩, pos + 1 + used)
      | none => (⟨.errTok, "missing end quote", pos⟩, q.length)
    else
      let w := (c :: rest).takeWhile (fun c => !wordStop c)
      let t := String.mk w
      if t = "AND" then (⟨.opAnd, t, pos⟩, pos + w.length)
      else if t = "OR" then (⟨.opOr, t, pos⟩, pos + w.length)
      else (⟨.word, t, pos⟩, pos + w.length)

/-- Modelled from the spec: read one token in value position
(`toks.value()`): like key position but `/regexp/` literals replace the
contextual operators. -/
def valueTok (q : List Char) (pos0 : Nat) : GTok × Nat :=
  let pos := skipWs q pos0
  match q.drop pos with
  | [] => (⟨.eofTok, "", pos⟩, pos)
  | c :: rest =>
    if c = '(' then (⟨.lparen, "(", pos⟩, pos + 1)
    else if c = ')' then (⟨.rparen, ")", pos⟩, pos + 1)
    else if c = '"' then
      match quotedScan [] rest with
      | some (w, used) => (⟨.quoted, String.mk w, pos⟩, pos + 1 + used)
      | none => (⟨.errTok, "missing end quote", pos⟩, q.length)
    else if c = '/' then
      match regexScan [] rest with
      | some (w, used) =>
        match q.drop (pos + 1 + used) with
        | [] => (⟨.regex, String.mk w, pos⟩, pos + 1 + used)
        | d :: _ =>
          if d = ' ' || d = ')' then (⟨.regex, String.mk w, pos⟩, pos + 1 + used)
          else (⟨.errTok, "regexp must be followed by space or an operator", pos⟩, q.length)
      | none => (⟨.errTok, "missing close \"/\"", pos⟩, q.length)
    else
      let w := (c :: rest).takeWhile (fun c => !wordStop c)
      (⟨.word, String.mk w, pos⟩, pos + w.length)

/-- The `Filter` AST of `internal/parse`: `FilterMatch{Key, Regexp, Lit,
Off}` (a compiled regexp is modelled by its pattern) and `FilterOp{Op,
Exprs}`. -/
inductive OpKind where
  | opAnd
  | opOr
  | opNot
deriving DecidableEq

inductive GFilter where
  | fmatch (key : String) (rx : Option String) (lit : String) (off : Nat)
  | fop (op : OpKind) (exprs : List GFilter)

/-- `parser.error`: a `SyntaxError` at the next token's byte offset. -/
def errAt (q : List Char) (pos : Nat) (msg : String) : SynErr :=
  ⟨String.mk q, skipWs q pos, msg⟩

/-- `parser.mkMatch`: a literal match for a word or quoted value, a regexp
match for a regex value, both carrying the key's offset. -/
def mkMatch (off : Nat) (key : String) (val : GTok) : GFilter :=
  match val.kind with
  | .regex => .fmatch key (some val.tok) "" off
  | _ => .fmatch key none val.tok off

/-- The mutually recursive parsing procedures of `filter.go`'s `parser`,
bundled so that the recursion is structural on a fuel bound (any fuel
larger than the input length behaves like the unbounded Go recursion). -/
structure ParserFns where
  exprF : List Char → Nat → Except SynErr (GFilter × Nat)
  exprMoreF : List Char → Nat → List GFilter → Except SynErr (GFilter × Nat)
  andExprF : List Char → Nat → Except SynErr (GFilter × Nat)
  andMoreF : List Char → Nat → List GFilter → Except SynErr (GFilter × Nat)
  matchF : List Char → Nat → Except SynErr (GFilter × Nat)
  multiValsF : List Char → Nat → String → List GFilter → Nat → Except SynErr (GFilter × Nat)

/-- The parser at a given recursion depth: `exprF` is `parser.expr`
(an `OR` chain of `andExpr`s, its loop being `exprMoreF`); `andExprF` is
`parser.andExpr` (matches with optional `AND`s, its loop being
`andMoreF`); `matchF` is `parser.match` (parenthesized subexpression,
negation, `*`, `key:value`, or `key:(value …)` whose loop is
`multiValsF`, where an immediate `)` is `nothing to match`). -/
def parserFuel : Nat → ParserFns
  | 0 =>
    let err := fun (q : List Char) (pos : Nat) => .error (errAt q pos "recursion limit")
    ⟨fun q pos => err q pos, fun q pos _ => err q pos, fun q pos => err q pos,
      fun q pos _ => err q pos, fun q pos => err q pos, fun q _ _ _ pos => err q pos⟩
  | fuel + 1 =>
    let P := parserFuel fuel
    { exprF := fun q pos =>
        match P.andExprF q pos with
        | .error e => .error e
        | .ok (t, pos') => P.exprMoreF q pos' [t]
      exprMoreF := fun q pos terms =>
        let (op, pos2) := keyTok q pos
        if op.kind = .opOr then
          match P.andExprF q pos2 with
          | .error e => .error e
          | .ok (t, pos') => P.exprMoreF q pos' (terms ++ [t])
        else
          match terms with
          | [t] => .ok (t, pos)
          | _ => .ok (.fop .opOr terms, pos)
      andExprF := fun q pos =>
        match P.matchF q pos with
        | .error e => .error e
        | .ok (t, pos') => P.andMoreF q pos' [t]
      andMoreF := fun q pos terms =>
        let (op, pos2) := keyTok q pos
        match op.kind with
        | .opAnd => P.andMoreF q pos2 terms
        | .lparen | .dash | .star | .word | .quoted =>
          match P.matchF q pos with
          | .error e => .error e
          | .ok (t, pos') => P.andMoreF q pos' (terms ++ [t])
        | .rparen | .opOr | .eofTok =>
          match terms with
          | [t] => .ok (t, pos)
          | _ => .ok (.fop .opAnd terms, pos)
        | _ => .error (errAt q pos ("unexpected " ++ goQuote op.tok))
      matchF := fun q start =>
        let (tok, rest) := keyTok q start
        match tok.kind with
        | .lparen =>
          match P.exprF q rest with
          | .error e => .error e
          | .ok (f, pos) =>
            let (op, pos2) := keyTok q pos
            if op.kind = .rparen then .ok (f, pos2)
            else .error (errAt q pos "missing \")\"")
        | .dash =>
          match P.matchF q rest with
          | .error e => .error e
          | .ok (f, pos) => .ok (.fop .opNot [f], pos)
        | .star => .ok (.fop .opAnd [], rest)
        | .word | .quoted =>
          let (op, pos2) := keyTok q rest
          if op.kind ≠ .colon then .error (errAt q start "expected key:value")
          else
            let (val, pos3) := valueTok q pos2
            match val.kind with
            | .word | .quoted | .regex => .ok (mkMatch tok.off tok.tok val, pos3)
            | .lparen => P.multiValsF q tok.off tok.tok [] pos3
            | _ => .error (errAt q start "expected key:value")
        | _ => .error (errAt q start "expected key:value or subexpression")
      multiValsF := fun q off key terms pos =>
        let (val, pos2) := valueTok q pos
        match val.kind with
        | .rparen =>
          if terms.isEmpty then .error (errAt q pos "nothing to match")
          else .ok (.fop .opOr terms, pos2)
        | .word | .quoted | .regex => P.multiValsF q off key (terms ++ [mkMatch off key val]) pos2
        | _ => .error (errAt q pos "expected value") }

/-- `parser.expr` with a fuel bound. -/
def pExpr (fuel : Nat) (q : List Char) (pos : Nat) : Except SynErr (GFilter × Nat) :=
  (parserFuel fuel).exprF q pos

/-- `ParseFilter`: parse an `expr` and require the input be consumed. -/
def parseFilter (s : String) : Except SynErr GFilter :=
  let q := s.data
  match pExpr (q.length + 2) q 0 with
  | .error e => .error e
  | .ok (f, pos) =>
    let (t, _) := keyTok q pos
    match t.kind with
    | .eofTok => .ok f
    | _ => .error (errAt q pos ("unexpected " ++ goQuote t.tok))

mutual

/-- Modelled from the spec: the Filter Evaluator (`benchproc`'s filter
code is not among the sources): a literal/regexp leaf is decided by the
supplied `leaf` predicate; `AND`/`OR`/`NOT` fold over the children
(`NOT` is built with a single child). -/
def evalFilter (leaf : String → Option String → String → Bool) : GFilter → Bool
  | .fmatch k rx lit _ => leaf k rx lit
  | .fop .opAnd fs => evalAll leaf fs
  | .fop .opOr fs => evalAny leaf fs
  | .fop .opNot fs => !evalAll leaf fs

def evalAll (leaf : String → Option String → String → Bool) : List GFilter → Bool
  | [] => true
  | f :: fs => evalFilter leaf f && evalAll leaf fs

def evalAny (leaf : String → Option String → String → Bool) : List GFilter → Bool
  | [] => false
  | f :: fs => evalFilter leaf f || evalAny leaf fs

end

/-! ### Projection parsing (`projection.go`, `schema.go`'s
`ProjectionParser.makeProjection`) -/

/-- A parsed `Projection` component: key, order name (`"first"` by
default, `"fixed"` for a parenthesized list), the fixed value list, and
the key/order byte offsets. -/
structure PProj where
  key : String
  order : String
  fixed : List String
  keyOff : Nat
  orderOff : Nat
deriving DecidableEq

/-- The fixed-order list loop of `parseProjection1`: words until `)`; an
empty list is `nothing to match`. -/
def fixedLoop (fuel : Nat) (q : List Char) (p : PProj) (pos : Nat) :
    Except SynErr (PProj × Nat) :=
  match fuel with
  | 0 => .error (errAt q pos "recursion limit")
  | fuel + 1 =>
    let (t, pos2) := keyTok q pos
    match t.kind with
    | .word | .quoted => fixedLoop fuel q { p with fixed := p.fixed ++ [t.tok] } pos2
    | .rparen =>
      if p.fixed.isEmpty then .error (errAt q pos "nothing to match")
      else .ok (p, pos2)
    | _ => .error (errAt q pos "missing )")

/-- `parseProjection1`: a key, optionally followed by `@` and either a
named order or a parenthesized fixed order.  The default order is
`"first"` with the order offset just past the key; a present order's
offset is that of its first token. -/
def parseProjection1 (q : List Char) (pos : Nat) : Except SynErr (PProj × Nat) :=
  let (key, pos2) := keyTok q pos
  match key.kind with
  | .word | .quoted =>
    let p0 : PProj := ⟨key.tok, "first", [], key.off, key.off + key.tok.length⟩
    let (sep, pos3) := keyTok q pos2
    if sep.kind ≠ .atSign then .ok (p0, pos2)
    else
      let (order, pos4) := keyTok q pos3
      match order.kind with
      | .word | .quoted => .ok ({ p0 with order := order.tok, orderOff := order.off }, pos4)
      | .lparen => fixedLoop (q.length + 2) q { p0 with order := "fixed", orderOff := order.off } pos4
      | _ => .error (errAt q pos3 "expected named sort order or parenthesized list")
  | _ => .error (errAt q pos "expected key")

/-- The loop of `ParseProjection`: stop at end of input, consume a
separating comma except before the first component, and parse components
in turn. -/
def parseProjectionGo (fuel : Nat) (q : List Char) (pos : Nat) (projs : List PProj) :
    Except SynErr (List PProj) :=
  match fuel with
  | 0 => .error (errAt q pos "recursion limit")
  | fuel + 1 =>
    let (tok, pos2) := keyTok q pos
    if tok.kind = .eofTok then .ok projs
    else
      let pos := if tok.kind = .comma && !projs.isEmpty then pos2 else pos
      match parseProjection1 q pos with
      | .error e => .error e
      | .ok (p, pos') => parseProjectionGo fuel q pos' (projs ++ [p])

/-- `ParseProjection` over a whole expression string. -/
def parseProjectionStr (s : String) : Except SynErr (List PProj) :=
  parseProjectionGo (s.data.length + 2) s.data 0 []

/-- The order-name resolution of `ProjectionParser.makeProjection`:
`fixed` and `first` are handled specially, then `builtinOrders` (`alpha`,
`num`), and any other name is the `unknown order %q` syntax error at the
order's offset. -/
def ordKindOf (q : String) (pr : PProj) : Except SynErr CmpKind :=
  if pr.order = "fixed" then .ok (.fixedOrd pr.fixed)
  else if pr.order = "first" then .ok .firstOrd
  else if pr.order = "alpha" then .ok .alpha
  else if pr.order = "num" then .ok .num
  else .error ⟨q, pr.orderOff, "unknown order " ++ goQuote pr.order⟩

/-- The validation performed by `ProjectionParser.makeProjection` before
any field is wired: resolve the order, then reject a fixed order on the
`.config` group (`fixed order not allowed for .config`, at the order's
offset).  Returns the projected key with its ordering policy. -/
def makeProjCheck (q : String) (pr : PProj) : Except SynErr (String × CmpKind) := do
  let k ← ordKindOf q pr
  if pr.key = ".config" && pr.order = "fixed" then
    .error ⟨q, pr.orderOff, "fixed order not allowed for .config"⟩
  else .ok (pr.key, k)

/-- `ProjectionParser.Parse`: parse the projection expression and run
`makeProjection` on each component; the first error aborts the parse and
no Schema is returned. -/
def schemaParse (s : String) : Except SynErr (List (String × CmpKind)) := do
  let prs ← parseProjectionStr s
  prs.mapM (makeProjCheck s)

/-! ### Auxiliary notions used by the statements -/

/-- Sign-antisymmetry of a comparator, as all wired comparators satisfy:
swapping the arguments negates the result. -/
def cmpAntisym (c : String → String → Int) : Prop := ∀ x y, c x y = -(c y x)

/-- A single field ordered by `@num`, at storage index 0. -/
def numFieldRef : FieldRef := ⟨0, cmpNum⟩

/-- The tuple order restricted to single-value configs of a one-field
`@num` schema. -/
def ltNum (a b : String) : Prop := less [numFieldRef] [a] [b] = true

instance decLtNum (a b : String) : Decidable (ltNum a b) :=
  inferInstanceAs (Decidable (less [numFieldRef] [a] [b] = true))

/-- The order the spec claims for sorting
`{-inf, -infinity, 1, 1.0, inf, infinity, NaN, nan}` under `@num`. -/
def numOrderTarget : List String :=
  ["-inf", "-infinity", "1", "1.0", "inf", "infinity", "NaN", "nan"]

/-- The nodes of one header level tile the index interval
`[start, stop)` in order: each node begins where the previous ended. -/
def TilesFrom : Nat → Nat → List HNode → Prop
  | start, stop, [] => start = stop
  | start, stop, n :: rest => n.start = start ∧ 0 < n.len ∧ TilesFrom (start + n.len) stop rest

/-! ## Theorems -/

/-! ### Trimming lemmas -/

theorem trimRow_cons (v : String) (r : List String) :
    trimRow (v :: r) = if trimRow r = [] ∧ v = "" then [] else v :: trimRow r := by
  simp only [trimRow, List.reverse_cons, List.dropWhile_append]
  by_cases h : List.dropWhile (fun v => v == "") r.reverse = []
  · by_cases hv : v = ""
    · simp [h, hv, List.dropWhile_cons]
    · simp [h, hv, List.dropWhile_cons]
  · have h' : (List.dropWhile (fun v => v == "") r.reverse).isEmpty = false := by
      simpa [List.isEmpty_iff] using h
    have hne : ¬ ((List.dropWhile (fun v => v == "") r.reverse).reverse = []) := by
      simpa using h
    simp [h', hne]

theorem trimRow_pad (r : List String) : ∃ k, r = trimRow r ++ List.replicate k "" := by
  induction r with
  | nil => exact ⟨0, rfl⟩
  | cons v r ih =>
    obtain ⟨k, hk⟩ := ih
    by_cases h : trimRow r = [] ∧ v = ""
    · refine ⟨k + 1, ?_⟩
      rw [trimRow_cons, if_pos h, List.nil_append, h.2, List.replicate_succ]
      exact congrArg _ (by rw [hk, h.1, List.nil_append])
    · refine ⟨k, ?_⟩
      rw [trimRow_cons, if_neg h, List.cons_append]
      exact congrArg _ hk

theorem getD_replicate_empty (k i : Nat) : (List.replicate k "").getD i "" = "" := by
  rw [List.getD_eq_getElem?_getD, List.getElem?_replicate]
  by_cases h : i < k <;> simp [h]

theorem getD_out_of_range (t : List String) (i : Nat) (h : t.length ≤ i) :
    t.getD i "" = "" := by
  rw [List.getD_eq_getElem?_getD, List.getElem?_eq_none h]
  rfl

theorem getVal_append_replicate (t : List String) (k i : Nat) :
    getVal (t ++ List.replicate k "") i = getVal t i := by
  unfold getVal
  by_cases h : i < t.length
  · exact List.getD_append _ _ _ _ h
  · rw [List.getD_append_right _ _ _ _ (Nat.le_of_not_lt h), getD_replicate_empty,
      getD_out_of_range _ _ (Nat.le_of_not_lt h)]

theorem getVal_trimRow (r : List String) (i : Nat) : getVal (trimRow r) i = getVal r i := by
  obtain ⟨k, hk⟩ := trimRow_pad r
  conv_rhs => rw [hk]
  rw [getVal_append_replicate]

theorem getVal_nil (i : Nat) : getVal [] i = "" := by simp [getVal]

theorem getVal_cons_zero (v : String) (r : List String) : getVal (v :: r) 0 = v := by
  simp [getVal]

theorem getVal_cons_succ (v : String) (r : List String) (i : Nat) :
    getVal (v :: r) (i + 1) = getVal r i := by
  simp [getVal]

theorem trimRow_eq_nil_of_all_empty {r : List String} (h : ∀ i, getVal r i = "") :
    trimRow r = [] := by
  induction r with
  | nil => rfl
  | cons v r ih =>
    have hv : v = "" := by rw [← getVal_cons_zero v r]; exact h 0
    have ht : trimRow r = [] := ih (fun i => by rw [← getVal_cons_succ v r i]; exact h (i + 1))
    rw [trimRow_cons, if_pos ⟨ht, hv⟩]

theorem trimRow_trimRow (r : List String) : trimRow (trimRow r) = trimRow r := by
  induction r with
  | nil => rfl
  | cons v r ih =>
    rw [trimRow_cons]
    by_cases h : trimRow r = [] ∧ v = ""
    · rw [if_pos h]; rfl
    · rw [if_neg h, trimRow_cons, ih, if_neg h]

theorem trimmed_tail {v : String} {r : List String} (h : trimRow (v :: r) = v :: r) :
    trimRow r = r := by
  rw [trimRow_cons] at h
  by_cases hc : trimRow r = [] ∧ v = ""
  · rw [if_pos hc] at h; simp at h
  · rw [if_neg hc] at h
    exact (List.cons.injEq .. ▸ congrArg id h).2

theorem trimmed_ext {a : List String} : ∀ {b : List String}, trimRow a = a → trimRow b = b →
    (∀ i, getVal a i = getVal b i) → a = b := by
  induction a with
  | nil =>
    intro b _ hb hp
    cases b with
    | nil => rfl
    | cons w b' =>
      have hz : trimRow (w :: b') = [] :=
        trimRow_eq_nil_of_all_empty (fun i => by rw [← hp i, getVal_nil])
      rw [hb] at hz; simp at hz
  | cons v a' ih =>
    intro b ha hb hp
    cases b with
    | nil =>
      have hz : trimRow (v :: a') = [] :=
        trimRow_eq_nil_of_all_empty (fun i => by rw [hp i, getVal_nil])
      rw [ha] at hz; simp at hz
    | cons w b' =>
      have h0 : v = w := by rw [← getVal_cons_zero v a', ← getVal_cons_zero w b']; exact hp 0
      have htail : ∀ i, getVal a' i = getVal b' i := fun i => by
        rw [← getVal_cons_succ v a' i, ← getVal_cons_succ w b' i]; exact hp (i + 1)
      rw [h0, ih (trimmed_tail ha) (trimmed_tail hb) htail]

theorem trimRow_eq_iff_pointwise (a b : List String) :
    trimRow a = trimRow b ↔ ∀ i, getVal a i = getVal b i := by
  constructor
  · intro h i
    rw [← getVal_trimRow a i, h, getVal_trimRow]
  · intro h
    exact trimmed_ext (trimRow_trimRow a) (trimRow_trimRow b)
      (fun i => by rw [getVal_trimRow, getVal_trimRow]; exact h i)

/-! ### Lookup lemmas for interning -/

theorem findRowIdx_some {cs : List (List String)} {r : List String} :
    ∀ {i : Nat}, findRowIdx cs r = some i → i < cs.length ∧ cs.getD i [] = r := by
  induction cs with
  | nil => intro i h; simp [findRowIdx] at h
  | cons c cs ih =>
    intro i h
    rw [findRowIdx] at h
    by_cases hc : c = r
    · rw [if_pos hc] at h
      cases h
      exact ⟨by simp, hc⟩
    · rw [if_neg hc] at h
      cases hfi : findRowIdx cs r with
      | none => rw [hfi] at h; simp at h
      | some j =>
        rw [hfi] at h
        simp at h
        obtain ⟨hlt, hg⟩ := ih hfi
        cases h
        exact ⟨by simpa using Nat.succ_lt_succ hlt, hg⟩

theorem findRowIdx_none_iff {cs : List (List String)} {r : List String} :
    findRowIdx cs r = none ↔ r ∉ cs := by
  induction cs with
  | nil => simp [findRowIdx]
  | cons c cs ih =>
    rw [findRowIdx]
    by_cases hc : c = r
    · simp [hc]
    · rw [if_neg hc]
      have hm : ((findRowIdx cs r).map (· + 1) = none) ↔ (findRowIdx cs r = none) := by
        cases findRowIdx cs r <;> simp
      rw [hm, ih]
      simp only [List.mem_cons, not_or]
      exact ⟨fun h => ⟨fun he => hc he.symm, h⟩, fun h => h.2⟩

theorem findRowIdx_append_self {cs : List (List String)} {r : List String}
    (h : findRowIdx cs r = none) : findRowIdx (cs ++ [r]) r = some cs.length := by
  induction cs with
  | nil => simp [findRowIdx]
  | cons c cs ih =>
    rw [List.cons_append]
    rw [findRowIdx] at h ⊢
    by_cases hc : c = r
    · rw [if_pos hc] at h; cases h
    · rw [if_neg hc] at h ⊢
      cases hfi : findRowIdx cs r with
      | none => rw [ih hfi]; simp
      | some j => rw [hfi] at h; simp at h

theorem findRowIdx_append_ne {cs : List (List String)} {r t : List String} (hne : t ≠ r) :
    findRowIdx (cs ++ [t]) r = findRowIdx cs r := by
  induction cs with
  | nil => simp [findRowIdx, hne]
  | cons c cs ih =>
    simp only [List.cons_append, findRowIdx, List.append_eq, ih]

theorem internRow_hit {s : SchemaSt} {rowBuf : List String} {i : Nat}
    (h : findRowIdx s.configs (trimRow rowBuf) = some i) : internRow s rowBuf = (s, i) := by
  unfold internRow
  rw [h]

theorem internRow_miss {s : SchemaSt} {rowBuf : List String}
    (h : findRowIdx s.configs (trimRow rowBuf) = none) :
    internRow s rowBuf =
      (⟨s.nFields, s.fields.map (updateOrder (trimRow rowBuf)),
        s.configs ++ [trimRow rowBuf]⟩, s.configs.length) := by
  unfold internRow
  rw [h]

/-- C1: projecting two rows through one Schema returns the identical
(reference-equal, i.e. same creation-order position) Config exactly when
the rows' trimmed value tuples are equal; and trimmed-tuple equality is
exactly agreement at every position, trailing empties ignored. -/
theorem internRow_identity_iff (s : SchemaSt) (r1 r2 : List String) :
    ((internRow (internRow s r1).1 r2).2 = (internRow s r1).2 ↔ trimRow r1 = trimRow r2)
    ∧ (trimRow r1 = trimRow r2 ↔ ∀ i, getVal r1 i = getVal r2 i) := by
  refine ⟨?_, trimRow_eq_iff_pointwise r1 r2⟩
  cases h1 : findRowIdx s.configs (trimRow r1) with
  | some i1 =>
    rw [internRow_hit h1]
    dsimp only
    cases h2 : findRowIdx s.configs (trimRow r2) with
    | some i2 =>
      rw [internRow_hit h2]
      dsimp only
      constructor
      · intro h
        obtain ⟨_, hg1⟩ := findRowIdx_some h1
        obtain ⟨_, hg2⟩ := findRowIdx_some h2
        rw [← hg1, ← hg2, h]
      · intro ht
        rw [ht] at h1
        rw [h1] at h2
        cases h2
        rfl
    | none =>
      rw [internRow_miss h2]
      dsimp only
      constructor
      · intro h
        obtain ⟨hlt, _⟩ := findRowIdx_some h1
        rw [← h] at hlt
        exact absurd hlt (lt_irrefl _)
      · intro ht
        rw [ht] at h1
        rw [h1] at h2
        cases h2
  | none =>
    rw [internRow_miss h1]
    dsimp only
    by_cases heq : trimRow r2 = trimRow r1
    · have hfind : findRowIdx (s.configs ++ [trimRow r1]) (trimRow r2) =
          some s.configs.length := by
        rw [heq]
        exact findRowIdx_append_self h1
      rw [internRow_hit hfind]
      dsimp only
      exact ⟨fun _ => heq.symm, fun _ => rfl⟩
    · have hne : trimRow r1 ≠ trimRow r2 := fun h => heq h.symm
      have happ : findRowIdx (s.configs ++ [trimRow r1]) (trimRow r2) =
          findRowIdx s.configs (trimRow r2) := findRowIdx_append_ne hne
      cases h2 : findRowIdx s.configs (trimRow r2) with
      | some j =>
        rw [internRow_hit (happ.trans h2)]
        dsimp only
        obtain ⟨hlt, _⟩ := findRowIdx_some h2
        refine ⟨fun h => ?_, fun ht => absurd ht hne⟩
        rw [h] at hlt
        exact absurd hlt (lt_irrefl _)
      | none =>
        rw [internRow_miss (happ.trans h2)]
        dsimp only
        constructor
        · intro h
          simp at h
        · intro ht
          exact absurd ht hne

/-! ### Schema growth (C2) and Config.Get (C10) -/

theorem less_cons (g : FieldRef) (flat : List FieldRef) (a b : List String) :
    less (g :: flat) a b =
      if getVal a g.idx = getVal b g.idx then less flat a b
      else if g.cmp (getVal a g.idx) (getVal b g.idx) ≠ 0 then
        decide (g.cmp (getVal a g.idx) (getVal b g.idx) < 0)
      else goStrLt (getVal a g.idx) (getVal b g.idx) := rfl

theorem less_insert_skip (l1 l2 : List FieldRef) (f : FieldRef) (a b : List String)
    (hf : getVal a f.idx = getVal b f.idx) :
    less (l1 ++ f :: l2) a b = less (l1 ++ l2) a b := by
  induction l1 with
  | nil =>
    rw [List.nil_append, List.nil_append, less_cons, if_pos hf]
  | cons g l1 ih =>
    rw [List.cons_append, List.cons_append, less_cons, less_cons]
    by_cases hg : getVal a g.idx = getVal b g.idx
    · rw [if_pos hg, if_pos hg, ih]
    · rw [if_neg hg, if_neg hg]

theorem trimRow_length_le (r : List String) : (trimRow r).length ≤ r.length := by
  obtain ⟨k, hk⟩ := trimRow_pad r
  conv_rhs => rw [hk]
  simp

theorem getD_append_last (cs : List (List String)) (t : List String) :
    (cs ++ [t]).getD cs.length [] = t := by
  rw [List.getD_append_right _ _ _ _ (le_refl _)]
  simp

theorem internRow_nFields (s : SchemaSt) (r : List String) :
    (internRow s r).1.nFields = s.nFields := by
  unfold internRow
  cases findRowIdx s.configs (trimRow r) <;> rfl

/-- The interned config returned by `internRow` is no longer than the row
buffer was allowed to be: its values list has length at most `nFields`. -/
theorem internRow_config_length (s : SchemaSt) (rowBuf : List String)
    (hrow : rowBuf.length ≤ s.nFields) :
    ((internRow s rowBuf).1.configs.getD (internRow s rowBuf).2 []).length ≤ s.nFields := by
  cases h : findRowIdx s.configs (trimRow rowBuf) with
  | some i =>
    rw [internRow_hit h]
    obtain ⟨hlt, hg⟩ := findRowIdx_some h
    dsimp only
    rw [hg]
    calc (trimRow rowBuf).length ≤ rowBuf.length := trimRow_length_le rowBuf
      _ ≤ s.nFields := hrow
  | none =>
    rw [internRow_miss h]
    dsimp only
    rw [getD_append_last]
    calc (trimRow rowBuf).length ≤ rowBuf.length := trimRow_length_le rowBuf
      _ ≤ s.nFields := hrow

/-- C2: `Schema.addField` after Configs have been produced assigns the
next unused storage index (`nFields`, which no existing field carries),
changes no existing field, leaves the interned configs — their values and
hence hashes — untouched, resolves every row to the same config identity
as before, and leaves the tuple order of previously produced configs
unchanged wherever the new field lands in the flattened tree. -/
theorem addField_growth (s : SchemaSt) (p : Nat) (name : String) (k : CmpKind)
    (hWF : SchemaWF s) :
    (addFieldAt s p name k).2.idx = s.nFields
    ∧ (∀ g ∈ s.fields, g.idx ≠ (addFieldAt s p name k).2.idx)
    ∧ (∀ g ∈ s.fields, g ∈ (addFieldAt s p name k).1.fields)
    ∧ (addFieldAt s p name k).1.configs = s.configs
    ∧ (∀ r, (internRow (addFieldAt s p name k).1 r).2 = (internRow s r).2)
    ∧ (∀ a ∈ s.configs, ∀ b ∈ s.configs,
        less ((addFieldAt s p name k).1.fields.map refOf) a b
          = less (s.fields.map refOf) a b) := by
  obtain ⟨hidx, hcfg⟩ := hWF
  refine ⟨rfl, ?_, ?_, rfl, ?_, ?_⟩
  · intro g hg
    exact Nat.ne_of_lt (hidx g hg)
  · intro g hg
    show g ∈ s.fields.take p ++ ⟨name, s.nFields, k, []⟩ :: s.fields.drop p
    rw [← List.take_append_drop p s.fields] at hg
    rcases List.mem_append.mp hg with h | h
    · exact List.mem_append.mpr (Or.inl h)
    · exact List.mem_append.mpr (Or.inr (List.mem_cons_of_mem _ h))
  · intro r
    unfold internRow
    have hc : (addFieldAt s p name k).1.configs = s.configs := rfl
    rw [hc]
    cases findRowIdx s.configs (trimRow r) <;> rfl
  · intro a ha b hb
    have hlen_a : a.length ≤ s.nFields := (hcfg a ha).2
    have hlen_b : b.length ≤ s.nFields := (hcfg b hb).2
    have hskip : getVal a s.nFields = getVal b s.nFields := by
      unfold getVal
      rw [getD_out_of_range _ _ hlen_a, getD_out_of_range _ _ hlen_b]
    show less ((s.fields.take p ++ ⟨name, s.nFields, k, []⟩ :: s.fields.drop p).map refOf) a b
      = less (s.fields.map refOf) a b
    rw [List.map_append, List.map_cons]
    rw [less_insert_skip _ _ _ _ _ hskip, ← List.map_append, List.take_append_drop]

/-- Witness for C2 at a concrete two-field schema with two interned
configs, inserting the new field between the existing ones. -/
theorem addField_growth_witness :
    (addFieldAt ⟨2, [⟨"a", 0, .alpha, []⟩, ⟨"b", 1, .alpha, []⟩], [["x"], ["y"]]⟩
        1 "new" .alpha).2.idx = 2
    ∧ (addFieldAt ⟨2, [⟨"a", 0, .alpha, []⟩, ⟨"b", 1, .alpha, []⟩], [["x"], ["y"]]⟩
        1 "new" .alpha).1.configs = [["x"], ["y"]]
    ∧ less ((addFieldAt ⟨2, [⟨"a", 0, .alpha, []⟩, ⟨"b", 1, .alpha, []⟩], [["x"], ["y"]]⟩
          1 "new" .alpha).1.fields.map refOf) ["x"] ["y"]
        = less ([⟨"a", 0, .alpha, []⟩, ⟨"b", 1, .alpha, []⟩].map refOf) ["x"] ["y"] := by
  have h := addField_growth ⟨2, [⟨"a", 0, .alpha, []⟩, ⟨"b", 1, .alpha, []⟩], [["x"], ["y"]]⟩
    1 "new" .alpha (by unfold SchemaWF; decide)
  exact ⟨h.1, h.2.2.2.1, h.2.2.2.2.2 ["x"] (by decide) ["y"] (by decide)⟩

/-- C10: `Config.Get` reads `""` for any field whose storage index is at
or past the end of the config's stored (trimmed) tuple; in particular a
field added to the Schema after a config was interned reads `""` on it. -/
theorem configGet_missing_field (s : SchemaSt) (rowBuf : List String) (p : Nat)
    (name : String) (k : CmpKind) (hrow : rowBuf.length ≤ s.nFields) :
    (∀ (vals : List String) (f : FieldSt), vals.length ≤ f.idx → configGet vals f = "")
    ∧ configGet ((internRow s rowBuf).1.configs.getD (internRow s rowBuf).2 [])
        (addFieldAt (internRow s rowBuf).1 p name k).2 = "" := by
  have hpast : ∀ (vals : List String) (f : FieldSt), vals.length ≤ f.idx →
      configGet vals f = "" := by
    intro vals f h
    unfold configGet
    rw [if_pos h]
  refine ⟨hpast, ?_⟩
  apply hpast
  show _ ≤ (internRow s rowBuf).1.nFields
  rw [internRow_nFields]
  exact internRow_config_length s rowBuf hrow

/-- Witness for C10: a one-field schema, a row interned before a second
field exists; the later field reads `""` on the old config. -/
theorem configGet_missing_field_witness :
    configGet ((internRow ⟨1, [⟨"a", 0, .alpha, []⟩], []⟩ ["x"]).1.configs.getD
        (internRow ⟨1, [⟨"a", 0, .alpha, []⟩], []⟩ ["x"]).2 [])
      (addFieldAt (internRow ⟨1, [⟨"a", 0, .alpha, []⟩], []⟩ ["x"]).1 1 "b" .alpha).2 = "" := by
  have h := configGet_missing_field ⟨1, [⟨"a", 0, .alpha, []⟩], []⟩ ["x"] 1 "b" .alpha
    (by decide)
  exact h.2

/-! ### Properties of the comparators -/

theorem cmpChars_antisym (x : List Char) : ∀ y, cmpChars x y = -(cmpChars y x) := by
  induction x with
  | nil => intro y; cases y <;> simp [cmpChars]
  | cons a as ih =>
    intro y
    cases y with
    | nil => simp [cmpChars]
    | cons b bs =>
      simp only [cmpChars]
      rcases Nat.lt_trichotomy a.toNat b.toNat with h | h | h
      · rw [if_pos h, if_neg (Nat.lt_asymm h), if_pos h]
      · rw [if_neg (by omega), if_neg (by omega), if_neg (by omega), if_neg (by omega), ih]
      · rw [if_neg (Nat.lt_asymm h), if_pos h, if_pos h]
        decide

theorem cmpChars_eq_zero_iff (x : List Char) : ∀ y, cmpChars x y = 0 ↔ x = y := by
  induction x with
  | nil => intro y; cases y <;> simp [cmpChars]
  | cons a as ih =>
    intro y
    cases y with
    | nil => simp [cmpChars]
    | cons b bs =>
      simp only [cmpChars]
      rcases Nat.lt_trichotomy a.toNat b.toNat with h | h | h
      · rw [if_pos h]
        constructor
        · intro habs; exact absurd habs (by decide)
        · intro hl
          injection hl with h1 h2
          subst h1
          omega
      · have hab : a = b := Char.ext (UInt32.ext h)
        rw [if_neg (by omega), if_neg (by omega), ih bs]
        simp [hab]
      · rw [if_neg (Nat.lt_asymm h), if_pos h]
        constructor
        · intro habs; exact absurd habs (by decide)
        · intro hl
          injection hl with h1 h2
          subst h1
          omega

theorem cmpChars_vals (x : List Char) : ∀ y, cmpChars x y = -1 ∨ cmpChars x y = 0 ∨
    cmpChars x y = 1 := by
  induction x with
  | nil => intro y; cases y <;> simp [cmpChars]
  | cons a as ih =>
    intro y
    cases y with
    | nil => simp [cmpChars]
    | cons b bs =>
      simp only [cmpChars]
      by_cases h1 : a.toNat < b.toNat
      · rw [if_pos h1]; left; rfl
      · rw [if_neg h1]
        by_cases h2 : b.toNat < a.toNat
        · rw [if_pos h2]; right; right; rfl
        · rw [if_neg h2]; exact ih bs

theorem cmpAlpha_antisym : cmpAntisym cmpAlpha := fun x y => cmpChars_antisym x.data y.data

theorem goStrLt_asymm {a b : String} (h : goStrLt a b = true) : goStrLt b a = false := by
  unfold goStrLt at *
  have hanti := cmpChars_antisym a.data b.data
  simp only [decide_eq_true_eq] at h
  rw [h] at hanti
  simp only [decide_eq_false_iff_not]
  omega

theorem goStrLt_total {a b : String} (h : a ≠ b) :
    goStrLt a b = true ∨ goStrLt b a = true := by
  unfold goStrLt
  have hne : a.data ≠ b.data := by
    intro hd
    apply h
    cases a
    cases b
    exact congrArg String.mk (by simpa using hd)
  have hz : cmpChars a.data b.data ≠ 0 := fun h0 => hne ((cmpChars_eq_zero_iff _ _).mp h0)
  have hanti := cmpChars_antisym a.data b.data
  rcases cmpChars_vals a.data b.data with hv | hv | hv
  · left; simp [hv]
  · exact absurd hv hz
  · right; rw [hv] at hanti; simp [hanti]

theorem dlt_asymm {a b : DecV} (h : dlt a b = true) : dlt b a = false := by
  simp only [dlt, decide_eq_true_eq] at h
  simp only [dlt, decide_eq_false_iff_not]
  omega

theorem vlt_asymm {x y : NumV} (h : vlt x y = true) : vlt y x = false := by
  cases x <;> cases y <;> simp_all [vlt]
  exact dlt_asymm h

theorem cmpNumV_core_antisym (x y : NumV) :
    (if vlt x y || (!isNaNV x && isNaNV y) then (-1 : Int)
      else if vlt y x || (isNaNV x && !isNaNV y) then 1 else 0)
    = -(if vlt y x || (!isNaNV y && isNaNV x) then (-1 : Int)
        else if vlt x y || (isNaNV y && !isNaNV x) then 1 else 0) := by
  cases x <;> cases y
  case nan.fin _ => simp [vlt, isNaNV]
  case fin.nan _ => simp [vlt, isNaNV]
  case negInf.fin _ => simp [vlt, isNaNV]
  case fin.negInf _ => simp [vlt, isNaNV]
  case posInf.fin _ => simp [vlt, isNaNV]
  case fin.posInf _ => simp [vlt, isNaNV]
  case fin.fin a b =>
    by_cases h1 : dlt a b = true
    · have h2 := dlt_asymm h1
      simp [vlt, isNaNV, h1, h2]
    · by_cases h2 : dlt b a = true
      · simp [vlt, isNaNV, h1, h2]
      · simp [vlt, isNaNV, h1, h2]
  all_goals decide

theorem cmpNum_antisym : cmpAntisym cmpNum := by
  intro a b
  unfold cmpNum
  cases parseNum a with
  | none =>
    cases parseNum b with
    | none => decide
    | some y =>
      show (1 : Int) = -(-1)
      decide
  | some x =>
    cases parseNum b with
    | none =>
      show (-1 : Int) = -(1)
      decide
    | some y => exact cmpNumV_core_antisym x y

/-- Every comparator a field can be wired with is sign-antisymmetric. -/
theorem fieldCmp_antisym (f : FieldSt) : cmpAntisym (fieldCmp f) := by
  unfold fieldCmp
  cases hk : f.kind with
  | alpha => exact cmpAlpha_antisym
  | num => exact cmpNum_antisym
  | fixedOrd l => intro x y; dsimp only; omega
  | firstOrd => intro x y; dsimp only; omega

/-! ### Properties of the tuple order `less` -/

theorem less_of_agree {flat : List FieldRef} {a b : List String}
    (h : ∀ f ∈ flat, getVal a f.idx = getVal b f.idx) : less flat a b = false := by
  induction flat with
  | nil => rfl
  | cons f flat ih =>
    rw [less_cons, if_pos (h f (List.mem_cons_self f flat))]
    exact ih (fun g hg => h g (List.mem_cons_of_mem _ hg))

theorem less_irrefl (flat : List FieldRef) (a : List String) : less flat a a = false :=
  less_of_agree (fun _ _ => rfl)

theorem less_asymm {flat : List FieldRef} {a b : List String}
    (hA : ∀ f ∈ flat, cmpAntisym f.cmp) (h : less flat a b = true) :
    less flat b a = false := by
  induction flat with
  | nil => rfl
  | cons f flat ih =>
    rw [less_cons] at h ⊢
    by_cases hf : getVal a f.idx = getVal b f.idx
    · rw [if_pos hf] at h
      rw [if_pos hf.symm]
      exact ih (fun g hg => hA g (List.mem_cons_of_mem _ hg)) h
    · rw [if_neg hf] at h
      have hf' : ¬ getVal b f.idx = getVal a f.idx := fun he => hf he.symm
      rw [if_neg hf']
      have hanti := hA f (List.mem_cons_self f flat) (getVal a f.idx) (getVal b f.idx)
      by_cases hc : f.cmp (getVal a f.idx) (getVal b f.idx) = 0
      · rw [if_neg (fun hne => hne hc)] at h
        have hc' : f.cmp (getVal b f.idx) (getVal a f.idx) = 0 := by omega
        rw [if_neg (fun hne => hne hc')]
        exact goStrLt_asymm h
      · rw [if_pos hc] at h
        have hlt : f.cmp (getVal a f.idx) (getVal b f.idx) < 0 := by simpa using h
        have hc' : f.cmp (getVal b f.idx) (getVal a f.idx) ≠ 0 := by omega
        rw [if_pos hc']
        simp only [decide_eq_false_iff_not, not_lt]
        omega

theorem less_total_of_diff {flat : List FieldRef} {a b : List String}
    (hA : ∀ f ∈ flat, cmpAntisym f.cmp)
    (h : ∃ f ∈ flat, getVal a f.idx ≠ getVal b f.idx) :
    less flat a b = true ∨ less flat b a = true := by
  induction flat with
  | nil => simp at h
  | cons f flat ih =>
    rw [less_cons, less_cons]
    by_cases hf : getVal a f.idx = getVal b f.idx
    · rw [if_pos hf, if_pos hf.symm]
      apply ih (fun g hg => hA g (List.mem_cons_of_mem _ hg))
      obtain ⟨g, hg, hne⟩ := h
      rcases List.mem_cons.mp hg with rfl | hg'
      · exact absurd hf hne
      · exact ⟨g, hg', hne⟩
    · have hf' : ¬ getVal b f.idx = getVal a f.idx := fun he => hf he.symm
      rw [if_neg hf, if_neg hf']
      have hanti := hA f (List.mem_cons_self f flat) (getVal a f.idx) (getVal b f.idx)
      by_cases hc : f.cmp (getVal a f.idx) (getVal b f.idx) = 0
      · have hc' : f.cmp (getVal b f.idx) (getVal a f.idx) = 0 := by omega
        rw [if_neg (fun hne => hne hc), if_neg (fun hne => hne hc')]
        exact goStrLt_total hf
      · by_cases hlt : f.cmp (getVal a f.idx) (getVal b f.idx) < 0
        · left
          rw [if_pos hc]
          simpa using hlt
        · right
          have hc' : f.cmp (getVal b f.idx) (getVal a f.idx) ≠ 0 := by omega
          rw [if_pos hc']
          simp only [decide_eq_true_eq]
          omega

theorem less_first_diff {a b : List String} (l r : List FieldRef) (f : FieldRef)
    (hl : ∀ g ∈ l, getVal a g.idx = getVal b g.idx)
    (hf : getVal a f.idx ≠ getVal b f.idx) :
    less (l ++ f :: r) a b =
      if f.cmp (getVal a f.idx) (getVal b f.idx) ≠ 0 then
        decide (f.cmp (getVal a f.idx) (getVal b f.idx) < 0)
      else goStrLt (getVal a f.idx) (getVal b f.idx) := by
  induction l with
  | nil =>
    rw [List.nil_append, less_cons, if_neg hf]
  | cons g l ih =>
    rw [List.cons_append, less_cons, if_pos (hl g (List.mem_cons_self g l))]
    exact ih (fun g' hg' => hl g' (List.mem_cons_of_mem _ hg'))

/-- C3: the tuple order scans fields in canonical schema order and, at the
first field whose raw values differ, orders by that field's comparator,
falling back to byte-wise string order when the comparator reports 0 for
differing strings; for sign-antisymmetric field comparators (all wired
comparators are, by `fieldCmp_antisym`) it is a strict order: equal tuples
are never less, it is asymmetric, and any two configs differing at some
scanned field compare strictly one way. -/
theorem less_strict_order (flat : List FieldRef) (a b : List String)
    (hA : ∀ f ∈ flat, cmpAntisym f.cmp) :
    less flat a a = false
    ∧ ((∀ f ∈ flat, getVal a f.idx = getVal b f.idx) → less flat a b = false)
    ∧ ¬(less flat a b = true ∧ less flat b a = true)
    ∧ ((∃ f ∈ flat, getVal a f.idx ≠ getVal b f.idx) →
        less flat a b = true ∨ less flat b a = true)
    ∧ (∀ l r f, flat = l ++ f :: r → (∀ g ∈ l, getVal a g.idx = getVal b g.idx) →
        getVal a f.idx ≠ getVal b f.idx →
        less flat a b =
          if f.cmp (getVal a f.idx) (getVal b f.idx) ≠ 0 then
            decide (f.cmp (getVal a f.idx) (getVal b f.idx) < 0)
          else goStrLt (getVal a f.idx) (getVal b f.idx)) := by
  refine ⟨less_irrefl flat a, less_of_agree, ?_, less_total_of_diff hA, ?_⟩
  · rintro ⟨h1, h2⟩
    rw [less_asymm hA h1] at h2
    cases h2
  · intro l r f hflat hl hf
    rw [hflat]
    exact less_first_diff l r f hl hf

/-- Witness for C3 over a one-field `@num` schema and the configs
`["1"]`, `["2"]`. -/
theorem less_strict_order_witness :
    less [refOf ⟨"a", 0, .num, []⟩] ["1"] ["1"] = false
    ∧ (less [refOf ⟨"a", 0, .num, []⟩] ["1"] ["2"] = true
        ∨ less [refOf ⟨"a", 0, .num, []⟩] ["2"] ["1"] = true) := by
  have h := less_strict_order [refOf ⟨"a", 0, .num, []⟩] ["1"] ["2"]
    (by
      intro f hf
      rw [List.mem_singleton] at hf
      subst hf
      exact fieldCmp_antisym ⟨"a", 0, .num, []⟩)
  exact ⟨h.1, h.2.2.2.1 ⟨refOf ⟨"a", 0, .num, []⟩, List.mem_singleton_self _, by decide⟩⟩

/-! ### The `@num` order (C4) -/

/-- C4: under the `num` comparator, every unparsable string sorts after
every parsable one; NaN sorts after every non-NaN number, infinities
included; two unparsable strings, or two NaNs, compare as 0 (deferring to
the tuple order's string fallback); and sorting
`{-inf, -infinity, 1, 1.0, inf, infinity, NaN, nan}` under `@num` from any
permutation yields exactly that order (the target is sorted, and it is the
only sorted arrangement of those strings). -/
theorem numOrder_correct :
    (∀ a b, parseNum a ≠ none → parseNum b = none → cmpNum a b = -1 ∧ cmpNum b a = 1)
    ∧ (∀ a b v, parseNum a = some v → isNaNV v = false → parseNum b = some .nan →
        cmpNum a b = -1 ∧ cmpNum b a = 1)
    ∧ (∀ a b, parseNum a = none → parseNum b = none → cmpNum a b = 0)
    ∧ (∀ a b, parseNum a = some .nan → parseNum b = some .nan → cmpNum a b = 0)
    ∧ List.Sorted ltNum numOrderTarget
    ∧ (∀ l, l.Perm numOrderTarget → l.Sorted ltNum → l = numOrderTarget) := by
  have hsorted : List.Sorted ltNum numOrderTarget := by decide
  refine ⟨?_, ?_, ?_, ?_, hsorted, ?_⟩
  · intro a b ha hb
    cases hx : parseNum a with
    | none => exact absurd hx ha
    | some x => exact ⟨by simp [cmpNum, hx, hb], by simp [cmpNum, hx, hb]⟩
  · intro a b v ha hnan hb
    cases v with
    | nan => simp [isNaNV] at hnan
    | negInf => exact ⟨by simp [cmpNum, ha, hb, vlt, isNaNV], by simp [cmpNum, ha, hb, vlt, isNaNV]⟩
    | posInf => exact ⟨by simp [cmpNum, ha, hb, vlt, isNaNV], by simp [cmpNum, ha, hb, vlt, isNaNV]⟩
    | fin d => exact ⟨by simp [cmpNum, ha, hb, vlt, isNaNV], by simp [cmpNum, ha, hb, vlt, isNaNV]⟩
  · intro a b ha hb
    simp [cmpNum, ha, hb]
  · intro a b ha hb
    simp [cmpNum, ha, hb, vlt, isNaNV]
  · intro l hperm hsort
    haveI : IsAntisymm String ltNum := ⟨fun x y h1 h2 => by
      have h1' : less [numFieldRef] [x] [y] = true := h1
      have h2' : less [numFieldRef] [y] [x] = true := h2
      have hA : ∀ f ∈ [numFieldRef], cmpAntisym f.cmp := by
        intro f hf
        rw [List.mem_singleton] at hf
        subst hf
        exact cmpNum_antisym
      rw [less_asymm hA h1'] at h2'
      cases h2'⟩
    exact List.eq_of_perm_of_sorted hperm hsort hsorted

/-- Witness for C4 at concrete strings. -/
theorem numOrder_correct_witness :
    cmpNum "1" "zzz" = -1 ∧ cmpNum "zzz" "1" = 1 ∧ cmpNum "1" "NaN" = -1
    ∧ cmpNum "x" "y" = 0 ∧ cmpNum "NaN" "nan" = 0
    ∧ numOrderTarget = numOrderTarget := by
  have h := numOrder_correct
  exact ⟨(h.1 "1" "zzz" (by decide) (by decide)).1,
    (h.1 "1" "zzz" (by decide) (by decide)).2,
    (h.2.1 "1" "NaN" (.fin ⟨1, 0⟩) (by decide) (by decide) (by decide)).1,
    h.2.2.1 "x" "y" (by decide) (by decide),
    h.2.2.2.1 "NaN" "nan" (by decide) (by decide),
    h.2.2.2.2.2 numOrderTarget (List.Perm.refl _) h.2.2.2.2.1⟩

/-! ### Numeric literals (C5) -/

/-- C5: `parseNum` maps `"1"` to 1, `"1k"`/`"1K"` to 1000, `"1ki"` to
1024, `"1Mi"` to 1048576 and `"1Y"` to 1e24, with an optional trailing `B`
or `b` (`"1kiB"`, `"1b"`); the exact finite representations are stated
together with their rational values. -/
theorem parseNum_literals :
    (parseNum "1" = some (.fin ⟨1, 0⟩) ∧ DecV.toRat ⟨1, 0⟩ = 1)
    ∧ (parseNum "1k" = some (.fin ⟨1000, 0⟩) ∧ parseNum "1K" = some (.fin ⟨1000, 0⟩)
        ∧ DecV.toRat ⟨1000, 0⟩ = 1000)
    ∧ (parseNum "1ki" = some (.fin ⟨1024, 0⟩) ∧ DecV.toRat ⟨1024, 0⟩ = 1024)
    ∧ (parseNum "1Mi" = some (.fin ⟨1048576, 0⟩) ∧ DecV.toRat ⟨1048576, 0⟩ = 1048576)
    ∧ (parseNum "1Y" = some (.fin ⟨10 ^ 24, 0⟩) ∧ DecV.toRat ⟨10 ^ 24, 0⟩ = 1e24)
    ∧ parseNum "1kiB" = some (.fin ⟨1024, 0⟩)
    ∧ parseNum "1b" = some (.fin ⟨1, 0⟩) := by
  refine ⟨⟨by decide, by norm_num [DecV.toRat]⟩, ⟨by decide, by decide, by norm_num [DecV.toRat]⟩,
    ⟨by decide, by norm_num [DecV.toRat]⟩, ⟨by decide, by norm_num [DecV.toRat]⟩,
    ⟨by decide, by norm_num [DecV.toRat]⟩, by decide, by decide⟩

/-! ### Header compaction (C6) -/

theorem TilesFrom_congr {a b b' : Nat} {l : List HNode} (h : TilesFrom a b l) (he : b = b') :
    TilesFrom a b' l := he ▸ h

theorem runsGo_tiles (i : Int) :
    ∀ (vals : List String) (cur : HNode) (pos : Nat), cur.start + cur.len = pos →
      0 < cur.len → TilesFrom cur.start (pos + vals.length) (runsGo i pos cur vals) := by
  intro vals
  induction vals with
  | nil =>
    intro cur pos hpos hlen
    exact ⟨rfl, hlen, by simpa [TilesFrom] using hpos⟩
  | cons v rest ih =>
    intro cur pos hpos hlen
    rw [runsGo]
    by_cases hv : v = cur.value
    · rw [if_pos hv]
      have h := ih { cur with len := cur.len + 1 } (pos + 1)
        (by show cur.start + (cur.len + 1) = pos + 1; omega)
        (by show 0 < cur.len + 1; omega)
      exact TilesFrom_congr h (by simp [List.length_cons]; omega)
    · rw [if_neg hv]
      refine ⟨rfl, hlen, ?_⟩
      have h := ih ⟨i, pos, 1, v⟩ (pos + 1) rfl Nat.one_pos
      rw [hpos]
      exact TilesFrom_congr h (by simp [List.length_cons]; omega)

theorem runs_tiles (i : Int) (base : Nat) (vals : List String) :
    TilesFrom base (base + vals.length) (runs i base vals) := by
  cases vals with
  | nil => simp [runs, TilesFrom]
  | cons v rest =>
    rw [runs]
    have h := runsGo_tiles i rest ⟨i, base, 1, v⟩ (base + 1) rfl Nat.one_pos
    exact TilesFrom_congr h (by simp [List.length_cons]; omega)

theorem subdivide_tiles (cs : List (List String)) (i : Nat) (parent : HNode) :
    TilesFrom parent.start (parent.start + parent.len) (subdivide cs i parent) := by
  unfold subdivide
  have h := runs_tiles (i : Int) parent.start
    ((List.range parent.len).map (fun j => rowGet cs (parent.start + j) i))
  exact TilesFrom_congr h (by simp)

theorem TilesFrom_append {b c : Nat} : ∀ {xs : List HNode} {a : Nat} {ys : List HNode},
    TilesFrom a b xs → TilesFrom b c ys → TilesFrom a c (xs ++ ys) := by
  intro xs
  induction xs with
  | nil =>
    intro a ys h1 h2
    have : a = b := h1
    rw [List.nil_append, this]
    exact h2
  | cons n xs ih =>
    intro a ys h1 h2
    obtain ⟨hs, hl, ht⟩ := h1
    exact ⟨hs, hl, ih ht h2⟩

theorem flatMap_subdivide_tiles (cs : List (List String)) (i : Nat) :
    ∀ {prev : List HNode} {a b : Nat}, TilesFrom a b prev →
      TilesFrom a b (prev.flatMap (subdivide cs i)) := by
  intro prev
  induction prev with
  | nil =>
    intro a b h
    exact h
  | cons n rest ih =>
    intro a b h
    obtain ⟨hs, hl, ht⟩ := h
    have hsplit : (n :: rest).flatMap (subdivide cs i) =
        subdivide cs i n ++ rest.flatMap (subdivide cs i) := rfl
    rw [hsplit]
    have h1 := subdivide_tiles cs i n
    rw [hs] at h1
    exact TilesFrom_append h1 (ih ht)

theorem levelsFrom_tiles (cs : List (List String)) (nTot : Nat) :
    ∀ (k i : Nat) (prev : List HNode), TilesFrom 0 nTot prev →
      ∀ lvl ∈ levelsFrom cs prev i k, TilesFrom 0 nTot lvl := by
  intro k
  induction k with
  | zero =>
    intro i prev h lvl hl
    simp [levelsFrom] at hl
  | succ k ih =>
    intro i prev h lvl hl
    simp only [levelsFrom] at hl
    rcases List.mem_cons.mp hl with rfl | hl'
    · exact flatMap_subdivide_tiles cs i h
    · exact ih (i + 1) _ (flatMap_subdivide_tiles cs i h) lvl hl'

theorem levelsFrom_length (cs : List (List String)) :
    ∀ (k i : Nat) (prev : List HNode), (levelsFrom cs prev i k).length = k := by
  intro k
  induction k with
  | zero => intro i prev; rfl
  | succ k ih =>
    intro i prev
    simp only [levelsFrom, List.length_cons, ih]

/-- C6 counterexample: on the spec's four example tuples, level 2 of
`NewConfigHeader` does not merge the two adjacent `c:2` runs that lie
under different level-1 parents, so the output differs from the claimed
`[c:1×1, c:2×2, c:3×1]` compaction. -/
theorem newConfigHeader_example_counter :
    newConfigHeader 3 [["1", "1", "1"], ["1", "1", "2"], ["2", "2", "2"], ["2", "3", "3"]] ≠
      [[⟨0, 0, 2, "1"⟩, ⟨0, 2, 2, "2"⟩],
       [⟨1, 0, 2, "1"⟩, ⟨1, 2, 1, "2"⟩, ⟨1, 3, 1, "3"⟩],
       [⟨2, 0, 1, "1"⟩, ⟨2, 1, 2, "2"⟩, ⟨2, 3, 1, "3"⟩]] := by decide

/-- C6 (amended): `NewConfigHeader` yields no levels on empty input and
one level per schema field otherwise, each level's spans tiling the whole
sequence while respecting parent boundaries; the example tuples compact to
`[a:1×2, a:2×2]`, `[b:1×2, b:2×1, b:3×1]`,
`[c:1×1, c:2×1, c:2×1, c:3×1]` (the two `c:2` runs stay split at the
parent boundary). -/
theorem newConfigHeader_correct :
    (∀ nf, newConfigHeader nf [] = [])
    ∧ (∀ nf (cs : List (List String)), cs ≠ [] → (newConfigHeader nf cs).length = nf)
    ∧ (∀ nf (cs : List (List String)), cs ≠ [] →
        ∀ lvl ∈ newConfigHeader nf cs, TilesFrom 0 cs.length lvl)
    ∧ newConfigHeader 3 [["1", "1", "1"], ["1", "1", "2"], ["2", "2", "2"], ["2", "3", "3"]] =
      [[⟨0, 0, 2, "1"⟩, ⟨0, 2, 2, "2"⟩],
       [⟨1, 0, 2, "1"⟩, ⟨1, 2, 1, "2"⟩, ⟨1, 3, 1, "3"⟩],
       [⟨2, 0, 1, "1"⟩, ⟨2, 1, 1, "2"⟩, ⟨2, 2, 1, "2"⟩, ⟨2, 3, 1, "3"⟩]] := by
  refine ⟨fun nf => rfl, ?_, ?_, by decide⟩
  · intro nf cs hne
    unfold newConfigHeader
    rw [if_neg (by simpa using hne)]
    exact levelsFrom_length cs nf 0 _
  · intro nf cs hne lvl hl
    unfold newConfigHeader at hl
    rw [if_neg (by simpa using hne)] at hl
    refine levelsFrom_tiles cs cs.length nf 0 _ ?_ lvl hl
    exact ⟨rfl, List.length_pos.mpr hne, by simp [TilesFrom]⟩

/-- Witness for C6 (amended) at a two-config, two-field input. -/
theorem newConfigHeader_correct_witness :
    (newConfigHeader 2 [["x"], ["y"]]).length = 2
    ∧ TilesFrom 0 2 [⟨(0 : Int), 0, 1, "x"⟩, ⟨(0 : Int), 1, 1, "y"⟩] := by
  have h := newConfigHeader_correct
  exact ⟨h.2.1 2 [["x"], ["y"]] (by decide),
    h.2.2.1 2 [["x"], ["y"]] (by decide) _ (by decide)⟩

/-! ### Full-name exclusion (C7) -/

theorem splitGmp_append (n : List Char) :
    (splitGmp n).1 ++ (match (splitGmp n).2 with | some g => g | none => []) = n := by
  unfold splitGmp
  cases gmpSuffixLen n.reverse 0 with
  | none => simp
  | some k => simp [List.take_append_drop]

theorem slashGo_flatten : ∀ (l cur : List Char), (slashGo cur l).flatten = cur.reverse ++ l := by
  intro l
  induction l with
  | nil => intro cur; simp [slashGo]
  | cons c rest ih =>
    intro cur
    rw [slashGo]
    by_cases hc : c = '/'
    · rw [if_pos hc]
      simp only [List.flatten_cons, ih]
      simp [hc]
    · rw [if_neg hc, ih]
      simp

theorem slashGo_ne_nil : ∀ (l cur : List Char), slashGo cur l ≠ [] := by
  intro l
  induction l with
  | nil => intro cur; simp [slashGo]
  | cons c rest ih =>
    intro cur
    rw [slashGo]
    by_cases hc : c = '/'
    · rw [if_pos hc]; simp
    · rw [if_neg hc]; exact ih _

theorem nameParts_eval_none (n buf b : List Char) (bs : List (List Char))
    (hsg : splitGmp n = (buf, none)) (hss : slashSplit buf = b :: bs) :
    nameParts n = (b, bs) := by
  unfold nameParts
  simp only [hsg, hss, List.append_nil]

theorem nameParts_eval_some (n buf gl b : List Char) (bs : List (List Char))
    (hsg : splitGmp n = (buf, some gl)) (hss : slashSplit buf = b :: bs) :
    nameParts n = (b, bs ++ [gl]) := by
  unfold nameParts
  simp only [hsg, hss, List.cons_append]

theorem nameParts_append (n : List Char) :
    (nameParts n).1 ++ (nameParts n).2.flatten = n := by
  have hsplit := splitGmp_append n
  rcases hsg : splitGmp n with ⟨buf, g⟩
  rw [hsg] at hsplit
  rcases hss : slashSplit buf with _ | ⟨b, bs⟩
  · exact absurd hss (slashGo_ne_nil buf [])
  have hflat : b ++ bs.flatten = buf := by
    have h2 := slashGo_flatten buf []
    have hss2 := hss
    rw [slashSplit] at hss2
    rw [hss2] at h2
    simpa using h2
  cases g with
  | none =>
    have hbn : buf = n := by simpa using hsplit
    rw [nameParts_eval_none n buf b bs hsg hss]
    show b ++ bs.flatten = n
    rw [← hbn]
    exact hflat
  | some gl =>
    have hbn : buf ++ gl = n := by simpa using hsplit
    rw [nameParts_eval_some n buf gl b bs hsg hss]
    show b ++ (bs ++ [gl]).flatten = n
    rw [List.flatten_append]
    simp only [List.flatten_cons, List.flatten_nil, List.append_nil]
    rw [← List.append_assoc, hflat]
    exact hbn

theorem slashGo_mem_sub : ∀ (l cur p : List Char),
    p ∈ slashGo cur l → List.IsInfix p (cur.reverse ++ l) := by
  intro l
  induction l with
  | nil =>
    intro cur p hp
    simp only [slashGo, List.mem_singleton] at hp
    subst hp
    simp
  | cons c rest ih =>
    intro cur p hp
    rw [slashGo] at hp
    by_cases hc : c = '/'
    · rw [if_pos hc] at hp
      rcases List.mem_cons.mp hp with rfl | hp'
      · exact (List.prefix_append _ _).isInfix
      · have h1 := ih [c] p hp'
        simp only [List.reverse_singleton] at h1
        exact h1.trans (List.suffix_append _ _).isInfix
    · rw [if_neg hc] at hp
      have h1 := ih (c :: cur) p hp
      rw [List.reverse_cons, List.append_assoc] at h1
      simpa using h1

theorem nameParts_mem_sub (n : List Char) (p : List Char)
    (hp : p ∈ (nameParts n).2) : List.IsInfix p n := by
  rcases hsg : splitGmp n with ⟨buf, g⟩
  have hbuf : List.IsInfix buf n := by
    have hsg2 := hsg
    unfold splitGmp at hsg2
    cases hg : gmpSuffixLen n.reverse 0 with
    | none => rw [hg] at hsg2; cases hsg2; exact List.infix_refl _
    | some k =>
      rw [hg] at hsg2
      cases hsg2
      exact (List.take_prefix _ _).isInfix
  rcases hss : slashSplit buf with _ | ⟨b, bs⟩
  · exact absurd hss (slashGo_ne_nil buf [])
  have hchunk : p ∈ b :: bs → List.IsInfix p n := by
    intro hmem
    have hmem2 : p ∈ slashSplit buf := by rw [hss]; exact hmem
    have h1 := slashGo_mem_sub buf [] p (by rwa [slashSplit] at hmem2)
    simp only [List.reverse_nil, List.nil_append] at h1
    exact h1.trans hbuf
  cases g with
  | none =>
    rw [nameParts_eval_none n buf b bs hsg hss] at hp
    exact hchunk (List.mem_cons_of_mem b hp)
  | some gl =>
    have hgsuf : List.IsInfix gl n := by
      have hsg2 := hsg
      unfold splitGmp at hsg2
      cases hg : gmpSuffixLen n.reverse 0 with
      | none => rw [hg] at hsg2; cases hsg2
      | some k =>
        rw [hg] at hsg2
        cases hsg2
        exact (List.drop_suffix _ _).isInfix
    rw [nameParts_eval_some n buf gl b bs hsg hss] at hp
    have hp2 : p ∈ bs ++ [gl] := hp
    rcases List.mem_append.mp hp2 with hbs | hglm
    · exact hchunk (List.mem_cons_of_mem b hbs)
    · have hpg : p = gl := by simpa using hglm
      rw [hpg]
      exact hgsuf

theorem containsSub_iff (hay needle : List Char) :
    containsSub hay needle = true ↔ List.IsInfix needle hay := by
  induction hay with
  | nil =>
    simp [containsSub, List.infix_nil, List.isEmpty_iff]
  | cons h t ih =>
    rw [containsSub, Bool.or_eq_true_iff, List.isPrefixOf_iff_prefix, ih,
      List.infix_cons_iff]

theorem map_id_on {α : Type} {f : α → α} :
    ∀ {l : List α}, (∀ a ∈ l, f a = a) → l.map f = l := by
  intro l
  induction l with
  | nil => intro _; rfl
  | cons a l ih =>
    intro h
    rw [List.map_cons, h a (List.mem_cons_self a l), ih (fun x hx => h x (List.mem_cons_of_mem _ hx))]

theorem rewritePart_id {replace : List (List Char)} {excG : Bool} {part n : List Char}
    (hpart : List.IsInfix part n)
    (hrep : ∀ k ∈ replace, containsSub n k = false)
    (hdash : excG = true → n.contains '-' = false) :
    rewritePart replace excG part = part := by
  unfold rewritePart
  have hfind : replace.find? (fun k => k.isPrefixOf part) = none := by
    rw [List.find?_eq_none]
    intro k hk habs
    have hpre : List.IsPrefix k part := List.isPrefixOf_iff_prefix.mp habs
    have hinf : List.IsInfix k n := hpre.isInfix.trans hpart
    rw [← containsSub_iff] at hinf
    rw [hrep k hk] at hinf
    cases hinf
  rw [hfind]
  have hcond : (excG && part.headD ' ' == '-') = false := by
    cases hG : excG with
    | false => rfl
    | true =>
      cases part with
      | nil => rfl
      | cons c cs =>
        cases hh : (c == '-') with
        | false => simpa using hh
        | true =>
          have hc : c = '-' := by simpa using hh
          have hmem : '-' ∈ n := hpart.subset (by simp [hc])
          have helem := List.elem_eq_true_of_mem hmem
          have hcontra : List.elem '-' n = false := hdash hG
          rw [helem] at hcontra
          cases hcontra
  rw [hcond]
  rfl

/-- The rebuilt-name shape of `extractFullExcluded`: the (possibly
stubbed) base name followed by every part, each either kept verbatim or
replaced by its stand-in, in position. -/
theorem extractFullExcluded_eq (n : List Char) (replace : List (List Char))
    (excName excG : Bool) :
    extractFullExcluded n replace excName excG =
      (if excName then ['*'] else (nameParts n).1)
        ++ ((nameParts n).2.map (rewritePart replace excG)).flatten := by
  unfold extractFullExcluded
  by_cases hf : (excName || replace.any (fun k => containsSub n k)
      || (excG && n.contains '-')) = true
  · rw [hf]
    dsimp only [Bool.not_true]
    rw [if_neg (by simp)]
  · have hff : (excName || replace.any (fun k => containsSub n k)
        || (excG && n.contains '-')) = false := by
      cases h : (excName || replace.any (fun k => containsSub n k) || (excG && n.contains '-'))
      · rfl
      · exact absurd h hf
    rcases Bool.or_eq_false_iff.mp hff with ⟨h12, h3⟩
    rcases Bool.or_eq_false_iff.mp h12 with ⟨h1, h2⟩
    have hrep : ∀ k ∈ replace, containsSub n k = false := by
      intro k hk
      have := List.any_eq_false.mp h2 k hk
      simpa using this
    have hdash : excG = true → n.contains '-' = false := by
      intro hG
      rw [hG] at h3
      simpa using h3
    rw [hff]
    show n = (if excName then ['*'] else (nameParts n).1)
        ++ ((nameParts n).2.map (rewritePart replace excG)).flatten
    rw [h1]
    rw [if_neg (fun h => Bool.noConfusion h)]
    rw [map_id_on (fun p hp => rewritePart_id (nameParts_mem_sub n p hp) hrep hdash)]
    exact (nameParts_append n).symm

/-- C7: excluded components of the full name are replaced by stand-ins in
place rather than deleted: the extractor always returns the base name (or
`*`) followed by each sub-name part rewritten positionally, the rewrite
preserves the number and order of parts, and the spec's example
`.fullname` over exclusions `.name, /a, exc` maps `Name/a=1/b=2` to
`*/a=*/b=2`. -/
theorem fullname_exclusion (n : List Char) (replace : List (List Char))
    (excName excG : Bool) :
    extractFullExcluded n replace excName excG =
      (if excName then ['*'] else (nameParts n).1)
        ++ ((nameParts n).2.map (rewritePart replace excG)).flatten
    ∧ ((nameParts n).2.map (rewritePart replace excG)).length = (nameParts n).2.length
    ∧ fullNameExtract (fullnameKeysOf [".name", "/a", "exc"]) "Name/a=1/b=2".data
        = "*/a=*/b=2".data :=
  ⟨extractFullExcluded_eq n replace excName excG, List.length_map _ _, by decide⟩

/-- C8: a multi-value match `key:(v1 v2 …)` parses to the `OR` of the
individual literal/regexp matches of the key against each value (shown for
a literal pair and for a regexp/literal mix), `*` parses to the empty
`AND`, which matches unconditionally under every leaf semantics, and the
empty list `key:()` is the `nothing to match` syntax error at the byte
offset of the offending `)` token. -/
theorem filter_multimatch_star :
    parseFilter "key:(a b)"
      = .ok (.fop .opOr [.fmatch "key" none "a" 0, .fmatch "key" none "b" 0])
    ∧ parseFilter "k:(/x/ b)"
      = .ok (.fop .opOr [.fmatch "k" (some "x") "" 0, .fmatch "k" none "b" 0])
    ∧ parseFilter "*" = .ok (.fop .opAnd [])
    ∧ (∀ leaf, evalFilter leaf (.fop .opAnd []) = true)
    ∧ parseFilter "key:()" = .error ⟨"key:()", 5, "nothing to match"⟩ :=
  ⟨rfl, rfl, rfl, fun _ => rfl, rfl⟩

/-- C9: giving the `.config` group key a fixed (parenthesized) order is
rejected during parsing with the syntax error `fixed order not allowed for
.config` at the order's byte offset, and no schema is produced. -/
theorem config_fixed_order_error :
    schemaParse ".config@(a b)"
      = .error ⟨".config@(a b)", 8, "fixed order not allowed for .config"⟩
    ∧ (schemaParse ".config@(a b)").isOk = false :=
  ⟨rfl, rfl⟩
